import Mathlib

/-!
# Verification of the docserver path-resolution and request-routing engine

Shallow embedding of the Go program `docserver.go` (package main).  The
filesystem is modelled as an association list from path strings to entries
(regular file with contents, directory, or symbolic link with a target
string).  Go's lexical `path/filepath` operations (`Clean`, `Join`, `Dir`,
`Ext`, `Rel`) are reimplemented over `List Char` following the Go standard
library's algorithms for Unix separators.  The server functions
(`resolvePath`, `findIndex`, `checkAccess`, `replaceTrailingSlash`,
`handleFile`, `serveMarkdown`, `handleRequest`) are translated one-to-one
from the source; external collaborators (the Markdown renderer and the
regexp filter matcher) are abstracted as function parameters, exactly as the
specification describes them.
-/

namespace Docserver

/-- A filesystem entry: regular file with contents, directory, or symlink. -/
inductive Entry where
  | file (content : String)
  | dir
  | symlink (target : String)
  deriving DecidableEq, Repr

/-- Error kinds, mirroring how `handleError` classifies Go errors:
`notFound` for `os.IsNotExist` path errors, `invalid` for other
generic/OS errors (which render as 500), `tooManyRedirects` for the
`errors.New("Too many levels of indirection")` error produced by
`resolvePath` (also rendered as 500 by `handleError`'s default case),
and `reqErr c` for a `RequestError` carrying HTTP status `c`. -/
inductive Err where
  | notFound
  | invalid
  | tooManyRedirects
  | reqErr (code : Nat)
  deriving DecidableEq, Repr

/-- The HTTP status that `handleError` writes for each error kind. -/
def statusOf : Err → Nat
  | .notFound => 404
  | .invalid => 500
  | .tooManyRedirects => 500
  | .reqErr c => c

/-- Filesystem model: association list from absolute path strings to entries. -/
abbrev Fs := List (String × Entry)

/-- Look a path up in the filesystem. -/
def fsGet : Fs → String → Option Entry
  | [], _ => none
  | (q, e) :: rest, p => if p = q then some e else fsGet rest p

/-- Model of `os.Lstat`: inspect an entry without following a final symlink. -/
def lstat (fs : Fs) (p : String) : Except Err Entry :=
  match fsGet fs p with
  | some e => .ok e
  | none => .error .notFound

/-- Model of `os.Readlink`. -/
def readlink (fs : Fs) (p : String) : Except Err String :=
  match fsGet fs p with
  | some (.symlink t) => .ok t
  | some _ => .error .invalid
  | none => .error .notFound

/-- Model of `ioutil.ReadFile` on a path known to be a regular file. -/
def readFile (fs : Fs) (p : String) : Except Err String :=
  match fsGet fs p with
  | some (.file c) => .ok c
  | some _ => .error .invalid
  | none => .error .notFound

/-- `isSymLink` from the source: `fi.Mode()&os.ModeSymlink != 0`. -/
def isSymLink : Entry → Bool
  | .symlink _ => true
  | _ => false

/-- `fi.IsDir()`. -/
def isDir : Entry → Bool
  | .dir => true
  | _ => false

/-! ## Lexical path operations (Go `path/filepath`, Unix rules) -/

/-- Split a character list into its non-empty `'/'`-separated segments
(the accumulator holds the current segment reversed). -/
def segsAux : List Char → List Char → List (List Char)
  | [], cur => if cur = [] then [] else [cur.reverse]
  | c :: rest, cur =>
    if c = '/' then
      (if cur = [] then segsAux rest [] else cur.reverse :: segsAux rest [])
    else segsAux rest (c :: cur)

/-- The non-empty segments of a path's character list. -/
def segsOf (l : List Char) : List (List Char) := segsAux l []

/-- Join segments back with `'/'` separators. -/
def joinSegs : List (List Char) → List Char
  | [] => []
  | [s] => s
  | s :: ss => s ++ '/' :: joinSegs ss

/-- Core of Go `filepath.Clean`: process segments left to right keeping an
output stack (most recent segment first).  `"."` is dropped; `".."` pops a
poppable segment, is dropped at the root of a rooted path, and is kept
otherwise; every other segment is pushed. -/
def cleanStack (rooted : Bool) : List (List Char) → List (List Char) → List (List Char)
  | [], acc => acc
  | s :: rest, acc =>
    if s = ['.'] then cleanStack rooted rest acc
    else if s = ['.', '.'] then
      match acc with
      | [] =>
        if rooted then cleanStack rooted rest []
        else cleanStack rooted rest [['.', '.']]
      | a :: as =>
        if a = ['.', '.'] then cleanStack rooted rest (['.', '.'] :: a :: as)
        else cleanStack rooted rest as
    else cleanStack rooted rest (s :: acc)

/-- Go `filepath.Clean` on a character list. -/
def cleanL (l : List Char) : List Char :=
  if l.take 1 = ['/'] then '/' :: joinSegs ((cleanStack true (segsOf l) []).reverse)
  else if (cleanStack false (segsOf l) []).reverse = [] then ['.']
  else joinSegs ((cleanStack false (segsOf l) []).reverse)

/-- Go `filepath.Clean`. -/
def fpClean (s : String) : String := ⟨cleanL s.data⟩

/-- Go `filepath.IsAbs` (Unix): a non-empty path starting with the
separator. -/
def isAbs (s : String) : Bool := decide (s.data.take 1 = ['/'])

/-- Go `filepath.Join` of two elements: empty elements are skipped, the rest
are joined with a separator and cleaned; all-empty input yields `""`. -/
def fpJoin (a b : String) : String :=
  if a = "" then (if b = "" then "" else fpClean b)
  else if b = "" then fpClean a
  else fpClean ⟨a.data ++ '/' :: b.data⟩

/-- Everything up to and including the last `'/'` (Go `filepath.Split`'s
directory part). -/
def dirPart (l : List Char) : List Char :=
  (l.reverse.dropWhile (fun c => c ≠ '/')).reverse

/-- Go `filepath.Dir`. -/
def fpDir (s : String) : String := ⟨cleanL (dirPart s.data)⟩

/-- Scan a reversed character list for the extension: stop empty at a
separator, return the suffix from the first `'.'` found. -/
def fpExtAux : List Char → List Char → List Char
  | [], _ => []
  | c :: rest, acc =>
    if c = '/' then []
    else if c = '.' then '.' :: acc
    else fpExtAux rest (c :: acc)

/-- Go `filepath.Ext`. -/
def fpExt (s : String) : String := ⟨fpExtAux s.data.reverse []⟩

/-- Drop the longest common prefix of two segment lists, returning both
remainders (the position `b0`/`t0` reached by `filepath.Rel`'s scan). -/
def dropCommon : List (List Char) → List (List Char) → List (List Char) × List (List Char)
  | a :: as, b :: bs =>
    if a = b then dropCommon as bs else (a :: as, b :: bs)
  | as, bs => (as, bs)

/-- Go `filepath.Rel base targ` (Unix, no volume names): clean both, equal
paths give `"."`, mixing absolute with relative is an error, a remaining
leading `".."` base segment is an error, and otherwise the remaining base
segments each become `".."` followed by the remaining target segments. -/
def fpRel (base targ : String) : Except Err String :=
  let b := cleanL base.data
  let t := cleanL targ.data
  if b = t then .ok "."
  else
    let b' := if b = ['.'] then [] else b
    let bAbs := b'.take 1 = ['/']
    let tAbs := t.take 1 = ['/']
    if bAbs ≠ tAbs then .error .invalid
    else
      let rems := dropCommon (segsOf b') (segsOf t)
      if rems.1.take 1 = [['.', '.']] then .error .invalid
      else .ok ⟨joinSegs (rems.1.map (fun _ => ['.', '.']) ++ rems.2)⟩

/-- `rootPath` from the source: `filepath.Clean(filepath.Join(root, path))`. -/
def rootPath (path : String) (root : String) : String :=
  fpClean (fpJoin root path)

/-! ## The server -/

/-- `maxLinkLevels` from the source. -/
def maxLinkLevels : Nat := 5

/-- `indexes` from the source: index candidates in preference order. -/
def indexes : List String := ["index.md", "README.md"]

/-- Result of `resolvePath`: the final path, the error if any (`none` on
success), and the number of symlink dereferences performed (the loop
variable `level` instrumented). -/
structure ResolveResult where
  path : String
  err : Option Err
  steps : Nat
  deriving DecidableEq, Repr

/-- The dereference loop of `resolvePath`, with the remaining levels as
fuel.  Each fuelled iteration reads the link target; an absolute target
replaces the path outright, a relative one is joined against the directory
containing the link and re-cleaned.  When fuel runs out with the path still
a symlink the loop exits and `resolvePath` fails with `tooManyRedirects`. -/
def resolveLoop (fs : Fs) : String → Entry → Nat → ResolveResult
  | path, fi, 0 =>
    if isSymLink fi then ⟨path, some .tooManyRedirects, 0⟩
    else ⟨path, none, 0⟩
  | path, fi, n + 1 =>
    if isSymLink fi then
      match readlink fs path with
      | .error e => ⟨path, some e, 0⟩
      | .ok target =>
        let path' := if isAbs target then target else fpJoin (fpDir path) target
        match lstat fs path' with
        | .error e => ⟨path', some e, 1⟩
        | .ok fi' =>
          let r := resolveLoop fs path' fi' n
          ⟨r.path, r.err, r.steps + 1⟩
    else ⟨path, none, 0⟩

/-- `resolvePath` from the source. -/
def resolvePath (fs : Fs) (path : String) : ResolveResult :=
  match lstat fs path with
  | .error e => ⟨path, some e, 0⟩
  | .ok fi => resolveLoop fs path fi maxLinkLevels

/-- Model of `os.Stat`: follow any remaining symlink chain (the OS bound of
40 links stands in for the kernel's ELOOP limit; every call site in this
program passes a path whose final component is already not a symlink). -/
def osStatAux (fs : Fs) : Nat → String → Except Err Entry
  | 0, _ => .error .invalid
  | n + 1, p =>
    match lstat fs p with
    | .ok (.symlink t) =>
      osStatAux fs n (if isAbs t then t else fpJoin (fpDir p) t)
    | r => r

/-- Model of `os.Stat`. -/
def osStat (fs : Fs) (p : String) : Except Err Entry := osStatAux fs 40 p

/-- The candidate loop of `findIndex`: try each index name in order; the
first one that resolves is checked (a directory is an internal error); if
none resolves the whole lookup is a `RequestError` with status 404. -/
def findIndexLoop (fs : Fs) (dir : String) : List String → Except Err String
  | [] => .error (.reqErr 404)
  | c :: rest =>
    let r := resolvePath fs (fpJoin dir c)
    match r.err with
    | some _ => findIndexLoop fs dir rest
    | none =>
      match osStat fs r.path with
      | .error e => .error e
      | .ok fi =>
        if isDir fi then .error (.reqErr 500) else .ok r.path

/-- `findIndex` from the source. -/
def findIndex (fs : Fs) (dir : String) : Except Err String :=
  findIndexLoop fs dir indexes

/-- `checkAccess` from the source.  Filters are the compiled regexps
abstracted as Boolean predicates on the root-relative path.  Returns `none`
on success, or the error to hand to `handleError`. -/
def checkAccess (fs : Fs) (root : String) (filters : List (String → Bool))
    (p : String) : Option Err :=
  match fpRel root p with
  | .error _ => some (.reqErr 404)
  | .ok relp =>
    if relp.data.length > 1 ∧ relp.data.take 2 = ['.', '.'] then
      some (.reqErr 403)
    else if filters.any (fun f => f relp) then some (.reqErr 404)
    else
      match lstat fs p with
      | .ok _ => none
      | .error e => some e

/-- The last character of a string, if any. -/
def lastChar (s : String) : Option Char := s.data.getLast?

/-- `replaceTrailingSlash` from the source. -/
def replaceTrailingSlash (p : String) (request : String) : String :=
  if lastChar request = some '/' ∧ lastChar p ≠ some '/' then p ++ "/"
  else p

/-- The built-in page template (`defaultPage`) with `.Title` and `.Markup`
substituted, exactly as `text/template` renders it. -/
def pageHtml (title markup : String) : String :=
  "\n<html>\n\t<head>\n\t\t<title>" ++ title ++
  "</title>\n\t\t<meta charset=\"utf-8\">\n\t</head>\n\t<body>\n\t\t<article>\n\t\t" ++
  markup ++ "\n\t\t</article>\n\t</body>\n</html>\n"

/-- Terminal outcome of one request, matching the specification's
`RequestOutcome` (serve outcomes carry the resolved path they serve). -/
inductive Outcome where
  | serveMarkdown (path : String) (body : String)
  | serveRaw (path : String) (body : String)
  | redirect (url : String)
  | error (code : Nat)
  deriving DecidableEq, Repr

/-- The path a serve outcome serves, if it is one. -/
def servedPath : Outcome → Option String
  | .serveMarkdown p _ => some p
  | .serveRaw p _ => some p
  | _ => none

/-- Whether an outcome serves a body. -/
def isServe (o : Outcome) : Bool := (servedPath o).isSome

/-- Whether an outcome is a redirect. -/
def isRedirect : Outcome → Bool
  | .redirect _ => true
  | _ => false

/-- `serveMarkdown` from the source: read the file, compute the title as
the path relative to the document root (empty on a `Rel` error, as Go's
`Rel` returns `""` alongside the error), render, and wrap in the page
template. -/
def serveMarkdown (fs : Fs) (root : String) (render : String → String)
    (file : String) : Outcome :=
  match readFile fs file with
  | .error _ => .error 404
  | .ok md =>
    let title := match fpRel root file with | .ok r => r | .error _ => ""
    .serveMarkdown file (pageHtml title (render md))

/-- `handleFile` from the source: `.md` files without the `raw` form value
are rendered, everything else is served as raw bytes. -/
def handleFile (fs : Fs) (root : String) (render : String → String)
    (filename : String) (raw : Bool) : Outcome :=
  if fpExt filename = ".md" ∧ ¬raw then serveMarkdown fs root render filename
  else
    match readFile fs filename with
    | .error _ => .error 404
    | .ok dat => .serveRaw filename dat

/-- The directory branch of `handleRequest` (source lines 316-341): force a
trailing slash via a redirect when the request lacked one, otherwise look
for an index file and redirect to it. -/
def handleDir (fs : Fs) (root : String) (path : String) (urlPath : String) : Outcome :=
  let p1 := replaceTrailingSlash path urlPath
  if lastChar p1 ≠ some '/' then
    match fpRel root p1 with
    | .ok relp => .redirect ("/" ++ relp ++ "/")
    | .error e => .error (statusOf e)
  else
    match findIndex fs p1 with
    | .error e => .error (statusOf e)
    | .ok idx =>
      match fpRel root idx with
      | .ok relp => .redirect ("/" ++ relp)
      | .error e => .error (statusOf e)

/-- `handleRequest` from the source.  `render` is the external Markdown
renderer, `filters` the compiled filter set, `urlPath` is `r.URL.Path`,
and `raw` is whether the parsed form contains the `raw` key. -/
def handleRequest (fs : Fs) (root : String) (filters : List (String → Bool))
    (render : String → String) (urlPath : String) (raw : Bool) : Outcome :=
  match resolvePath fs (fpJoin root urlPath) with
  | ⟨_, some e, _⟩ => .error (statusOf e)
  | ⟨path, none, _⟩ =>
    match osStat fs path with
    | .error e => .error (statusOf e)
    | .ok fi =>
      if isDir fi then handleDir fs root path urlPath
      else
        match checkAccess fs root filters path with
        | some e => .error (statusOf e)
        | none => handleFile fs root render path raw

end Docserver


namespace Docserver

/-! ## Lemmas about the symlink resolver -/

/-- A successful `lstat` comes from a filesystem hit. -/
theorem lstat_ok_fsGet {fs : Fs} {p : String} {fi : Entry}
    (h : lstat fs p = .ok fi) : fsGet fs p = some fi := by
  unfold lstat at h
  cases hg : fsGet fs p <;> simp only [hg] at h
  · exact Except.noConfusion h
  · exact congrArg some (Except.ok.inj h)

/-- `readlink` succeeds on a path the filesystem maps to a symlink. -/
theorem readlink_of_symlink {fs : Fs} {p t : String}
    (h : fsGet fs p = some (.symlink t)) : readlink fs p = .ok t := by
  unfold readlink
  rw [h]

/-- One dereference iteration when the next `lstat` fails. -/
theorem resolveLoop_step_err {fs : Fs} {path t : String} {e : Err} (n : Nat)
    (hg : fsGet fs path = some (.symlink t))
    (hl : lstat fs (if isAbs t then t else fpJoin (fpDir path) t) = .error e) :
    resolveLoop fs path (.symlink t) (n + 1)
      = ⟨if isAbs t then t else fpJoin (fpDir path) t, some e, 1⟩ := by
  have hrl : readlink fs path = .ok t := readlink_of_symlink hg
  simp [resolveLoop, isSymLink, hrl, hl]

/-- One dereference iteration when the next `lstat` succeeds. -/
theorem resolveLoop_step_ok {fs : Fs} {path t : String} {fi' : Entry} (n : Nat)
    (hg : fsGet fs path = some (.symlink t))
    (hl : lstat fs (if isAbs t then t else fpJoin (fpDir path) t) = .ok fi') :
    resolveLoop fs path (.symlink t) (n + 1)
      = ⟨(resolveLoop fs (if isAbs t then t else fpJoin (fpDir path) t) fi' n).path,
         (resolveLoop fs (if isAbs t then t else fpJoin (fpDir path) t) fi' n).err,
         (resolveLoop fs (if isAbs t then t else fpJoin (fpDir path) t) fi' n).steps + 1⟩ := by
  have hrl : readlink fs path = .ok t := readlink_of_symlink hg
  simp [resolveLoop, isSymLink, hrl, hl]

/-- A non-symlink entry makes the loop return immediately. -/
theorem resolveLoop_no_symlink (fs : Fs) (path : String) (fi : Entry)
    (h : isSymLink fi = false) : ∀ n, resolveLoop fs path fi n = ⟨path, none, 0⟩ := by
  intro n
  cases n <;> simp [resolveLoop, h]

/-- The dereference loop performs at most as many dereferences as it has fuel. -/
theorem resolveLoop_steps_le (fs : Fs) :
    ∀ (n : Nat) (path : String) (fi : Entry),
      lstat fs path = .ok fi → (resolveLoop fs path fi n).steps ≤ n := by
  intro n
  induction n with
  | zero =>
    intro path fi _
    by_cases hs : isSymLink fi = true <;> simp [resolveLoop, hs]
  | succ n ih =>
    intro path fi hfi
    cases fi with
    | file c => rw [resolveLoop_no_symlink fs path (.file c) rfl]; simp
    | dir => rw [resolveLoop_no_symlink fs path .dir rfl]; simp
    | symlink t =>
      have hg := lstat_ok_fsGet hfi
      cases hl : lstat fs (if isAbs t then t else fpJoin (fpDir path) t) with
      | error e => rw [resolveLoop_step_err n hg hl]; simp
      | ok fi' =>
        rw [resolveLoop_step_ok n hg hl]
        simpa using Nat.succ_le_succ (ih _ fi' hl)

/-- When the loop's final path is still a symbolic link, the loop reports
`tooManyRedirects`. -/
theorem resolveLoop_stuck (fs : Fs) :
    ∀ (n : Nat) (path : String) (fi : Entry), lstat fs path = .ok fi →
      ∀ e, lstat fs (resolveLoop fs path fi n).path = .ok e → isSymLink e = true →
      (resolveLoop fs path fi n).err = some Err.tooManyRedirects := by
  intro n
  induction n with
  | zero =>
    intro path fi hfi e he hse
    by_cases hs : isSymLink fi = true
    · simp [resolveLoop, hs]
    · rw [resolveLoop_no_symlink fs path fi (by simpa using hs) 0] at he ⊢
      simp only at he
      rw [Except.ok.inj (hfi.symm.trans he)] at hs
      exact absurd hse hs
  | succ n ih =>
    intro path fi hfi e he hse
    cases fi with
    | file c =>
      rw [resolveLoop_no_symlink fs path (.file c) rfl (n + 1)] at he ⊢
      simp only at he
      have : Entry.file c = e := Except.ok.inj (hfi.symm.trans he)
      rw [← this] at hse
      simp [isSymLink] at hse
    | dir =>
      rw [resolveLoop_no_symlink fs path .dir rfl (n + 1)] at he ⊢
      simp only at he
      have : Entry.dir = e := Except.ok.inj (hfi.symm.trans he)
      rw [← this] at hse
      simp [isSymLink] at hse
    | symlink t =>
      have hg := lstat_ok_fsGet hfi
      cases hl : lstat fs (if isAbs t then t else fpJoin (fpDir path) t) with
      | error e' =>
        rw [resolveLoop_step_err n hg hl] at he ⊢
        simp only at he
        exact absurd (hl.symm.trans he) (fun h => Except.noConfusion h)
      | ok fi' =>
        rw [resolveLoop_step_ok n hg hl] at he ⊢
        simp only at he ⊢
        exact ih _ fi' hl e he hse

/-- C3: symlink resolution always terminates: the dereference loop is
bounded at the fixed maximum depth `maxLinkLevels = 5`, so a symlink cycle
of any length is rejected within at most 5 dereference iterations (the
loop never runs more than 5 times and the recursion depth is bounded by the
same fuel), and whenever the path at loop exit is still a symbolic link the
resolver fails with the `tooManyRedirects` error kind. -/
theorem resolvePath_bounded (fs : Fs) (path : String) :
    (resolvePath fs path).steps ≤ maxLinkLevels ∧
    (∀ e, lstat fs (resolvePath fs path).path = .ok e → isSymLink e = true →
      (resolvePath fs path).err = some Err.tooManyRedirects) := by
  unfold resolvePath
  cases hl : lstat fs path with
  | error e =>
    refine ⟨by simp [maxLinkLevels], ?_⟩
    intro e' he' _
    simp only at he'
    exact absurd (hl.symm.trans he') (fun h => Except.noConfusion h)
  | ok fi =>
    exact ⟨resolveLoop_steps_le fs maxLinkLevels path fi hl,
      fun e he hse => resolveLoop_stuck fs maxLinkLevels path fi hl e he hse⟩

/-- Witness for C3: the two-link cycle `a → b → a` is rejected with
`tooManyRedirects`, within the `maxLinkLevels` bound. -/
theorem resolvePath_bounded_witness :
    (resolvePath [("a", Entry.symlink "b"), ("b", Entry.symlink "a")] "a").err
      = some Err.tooManyRedirects ∧
    (resolvePath [("a", Entry.symlink "b"), ("b", Entry.symlink "a")] "a").steps
      ≤ maxLinkLevels :=
  ⟨(resolvePath_bounded [("a", Entry.symlink "b"), ("b", Entry.symlink "a")] "a").2
      (Entry.symlink "a") rfl rfl,
    (resolvePath_bounded [("a", Entry.symlink "b"), ("b", Entry.symlink "a")] "a").1⟩

/-- C4: dereferencing a link whose target is absolute replaces the current
path outright; a relative target is joined against the directory containing
the link (`fpDir path`, not the link path itself) and re-canonicalized by
the join.  Stated both for the whole resolver on a one-link chain and for
the loop at any remaining depth (any fuel `n + 1`), covering links at every
nesting depth. -/
theorem resolvePath_symlink_target (fs : Fs) (p t : String) (e : Entry)
    (hp : lstat fs p = .ok (.symlink t))
    (ht : lstat fs (if isAbs t then t else fpJoin (fpDir p) t) = .ok e)
    (he : isSymLink e = false) :
    resolvePath fs p = ⟨if isAbs t then t else fpJoin (fpDir p) t, none, 1⟩ ∧
    ∀ n, resolveLoop fs p (.symlink t) (n + 1)
      = ⟨if isAbs t then t else fpJoin (fpDir p) t, none, 1⟩ := by
  have hg := lstat_ok_fsGet hp
  have hloop : ∀ n, resolveLoop fs p (.symlink t) (n + 1)
      = ⟨if isAbs t then t else fpJoin (fpDir p) t, none, 1⟩ := by
    intro n
    rw [resolveLoop_step_ok n hg ht,
      resolveLoop_no_symlink fs (if isAbs t then t else fpJoin (fpDir p) t) e he n]
  refine ⟨?_, hloop⟩
  unfold resolvePath
  rw [hp]
  exact hloop 4

/-- Witness for C4: a relative-target link in a nested directory,
`/r/a/b → ../c`, resolves against the link's directory `/r/a` and cleans to
`/r/c` (not `/r/a/c`). -/
theorem resolvePath_symlink_target_witness :
    resolvePath [("/r/a/b", Entry.symlink "../c"), ("/r/c", Entry.file "x")] "/r/a/b"
      = ⟨"/r/c", none, 1⟩ ∧
    fpJoin (fpDir "/r/a/b") "../c" = "/r/c" := by
  refine ⟨?_, rfl⟩
  have h := (resolvePath_symlink_target
    [("/r/a/b", Entry.symlink "../c"), ("/r/c", Entry.file "x")]
    "/r/a/b" "../c" (Entry.file "x") rfl rfl rfl).1
  exact h.trans rfl

/-! ## Lemmas about the request router -/

/-- The directory branch never serves a body: it only redirects or fails. -/
theorem servedPath_handleDir (fs : Fs) (root path urlPath : String) :
    servedPath (handleDir fs root path urlPath) = none := by
  unfold handleDir
  dsimp only
  split
  · split <;> simp [servedPath]
  · split
    · simp [servedPath]
    · split <;> simp [servedPath]

/-- If `handleFile` serves a body, the path it serves is its argument. -/
theorem servedPath_handleFile (fs : Fs) (root : String) (render : String → String)
    (q : String) (raw : Bool) (p : String)
    (h : servedPath (handleFile fs root render q raw) = some p) : p = q := by
  unfold handleFile serveMarkdown at h
  split at h
  · split at h <;> simp [servedPath] at h
    exact h.symm
  · split at h <;> simp [servedPath] at h
    exact h.symm

/-- A request that passed `checkAccess` cannot have a root-relative form
that triggers the escape condition. -/
theorem checkAccess_none_no_escape (fs : Fs) (root : String)
    (filters : List (String → Bool)) (p relp : String)
    (hacc : checkAccess fs root filters p = none)
    (hrel : fpRel root p = .ok relp) :
    ¬(relp.data.length > 1 ∧ relp.data.take 2 = ['.', '.']) := by
  intro hcond
  unfold checkAccess at hacc
  rw [hrel] at hacc
  simp only [if_pos hcond] at hacc
  exact Option.noConfusion hacc

/-- A character list that literally starts with `".."` satisfies the Go
condition `len(relp) > 1 && relp[:2] == ".."`. -/
theorem startsDotDot_cond (l : List Char) (h : ∃ rest, l = '.' :: '.' :: rest) :
    l.length > 1 ∧ l.take 2 = ['.', '.'] := by
  obtain ⟨rest, rfl⟩ := h
  refine ⟨?_, by simp⟩
  simp only [List.length_cons]
  omega

/-- C1: whenever the server serves a file body (rather than redirecting or
failing), the symlink-resolved path it serves has a root-relative form that
does not start with the parent-directory marker `".."`; and any resolved
path whose root-relative form does start with `".."` is rejected by the
containment check with `PermissionDenied` (status 403), so nothing is
served for it. -/
theorem served_path_contained (fs : Fs) (root : String)
    (filters : List (String → Bool)) (render : String → String)
    (urlPath : String) (raw : Bool) :
    (∀ p relp, servedPath (handleRequest fs root filters render urlPath raw) = some p →
      fpRel root p = .ok relp → ¬∃ rest, relp.data = '.' :: '.' :: rest) ∧
    (∀ p relp, fpRel root p = .ok relp → (∃ rest, relp.data = '.' :: '.' :: rest) →
      checkAccess fs root filters p = some (.reqErr 403)) := by
  constructor
  · intro p relp hserve hrel hdd
    unfold handleRequest at hserve
    rcases hres : resolvePath fs (fpJoin root urlPath) with ⟨pp, ee, ss⟩
    rw [hres] at hserve
    cases ee with
    | some e => simp [servedPath] at hserve
    | none =>
      simp only at hserve
      cases hstat : osStat fs pp with
      | error e => rw [hstat] at hserve; simp [servedPath] at hserve
      | ok fi =>
        rw [hstat] at hserve
        simp only at hserve
        by_cases hd : isDir fi = true
        · rw [if_pos hd, servedPath_handleDir] at hserve
          exact Option.noConfusion hserve
        · rw [if_neg hd] at hserve
          cases hacc : checkAccess fs root filters pp with
          | some e => rw [hacc] at hserve; simp [servedPath] at hserve
          | none =>
            rw [hacc] at hserve
            simp only at hserve
            have hpq := servedPath_handleFile fs root render pp raw p hserve
            subst hpq
            exact checkAccess_none_no_escape fs root filters p relp hacc hrel
              (startsDotDot_cond _ hdd)
  · intro p relp hrel hdd
    unfold checkAccess
    rw [hrel]
    simp only [if_pos (startsDotDot_cond _ hdd)]

/-- Witness for C1: a normal request inside the root is served and its
root-relative form `"a.md"` does not start with `".."`. -/
theorem served_path_contained_witness :
    ¬∃ rest, ("a.md".data = '.' :: '.' :: rest) :=
  (served_path_contained [("/r/a.md", Entry.file "x")] "/r" [] id "/a.md" false).1
    "/r/a.md" "a.md" rfl rfl

/-! ## Lemmas about the index resolver -/

/-- A candidate that fails to resolve is skipped. -/
theorem findIndexLoop_cons_err {fs : Fs} {dir c : String} {e : Err}
    (rest : List String) (h : (resolvePath fs (fpJoin dir c)).err = some e) :
    findIndexLoop fs dir (c :: rest) = findIndexLoop fs dir rest := by
  conv_lhs => unfold findIndexLoop
  dsimp only
  rw [h]

/-- A candidate that resolves to a non-directory is returned. -/
theorem findIndexLoop_cons_file {fs : Fs} {dir c : String} {e : Entry}
    (rest : List String) (h : (resolvePath fs (fpJoin dir c)).err = none)
    (hstat : osStat fs (resolvePath fs (fpJoin dir c)).path = .ok e)
    (hd : isDir e = false) :
    findIndexLoop fs dir (c :: rest) = .ok (resolvePath fs (fpJoin dir c)).path := by
  unfold findIndexLoop
  dsimp only
  rw [h, hstat]
  simp [hd]

/-- A candidate that resolves to a directory is an internal error. -/
theorem findIndexLoop_cons_dir {fs : Fs} {dir c : String}
    (rest : List String) (h : (resolvePath fs (fpJoin dir c)).err = none)
    (hstat : osStat fs (resolvePath fs (fpJoin dir c)).path = .ok .dir) :
    findIndexLoop fs dir (c :: rest) = .error (.reqErr 500) := by
  unfold findIndexLoop
  dsimp only
  rw [h, hstat]
  simp [isDir]

/-- C8: the index resolver tries the candidates in the fixed order
`index.md` then `README.md` and returns the first that resolves to a
non-directory file; if neither resolves it fails with a 404 `RequestError`
("no index found"), and if the first successfully resolving candidate is a
directory it fails with a 500 `RequestError` (internal error), whichever
candidate that is. -/
theorem findIndex_order_spec (fs : Fs) (dir : String) :
    (∀ e, (resolvePath fs (fpJoin dir "index.md")).err = none →
      osStat fs (resolvePath fs (fpJoin dir "index.md")).path = .ok e → isDir e = false →
      findIndex fs dir = .ok (resolvePath fs (fpJoin dir "index.md")).path) ∧
    (∀ e1 e, (resolvePath fs (fpJoin dir "index.md")).err = some e1 →
      (resolvePath fs (fpJoin dir "README.md")).err = none →
      osStat fs (resolvePath fs (fpJoin dir "README.md")).path = .ok e → isDir e = false →
      findIndex fs dir = .ok (resolvePath fs (fpJoin dir "README.md")).path) ∧
    (∀ e1 e2, (resolvePath fs (fpJoin dir "index.md")).err = some e1 →
      (resolvePath fs (fpJoin dir "README.md")).err = some e2 →
      findIndex fs dir = .error (.reqErr 404)) ∧
    ((resolvePath fs (fpJoin dir "index.md")).err = none →
      osStat fs (resolvePath fs (fpJoin dir "index.md")).path = .ok .dir →
      findIndex fs dir = .error (.reqErr 500)) ∧
    (∀ e1, (resolvePath fs (fpJoin dir "index.md")).err = some e1 →
      (resolvePath fs (fpJoin dir "README.md")).err = none →
      osStat fs (resolvePath fs (fpJoin dir "README.md")).path = .ok .dir →
      findIndex fs dir = .error (.reqErr 500)) := by
  refine ⟨?_, ?_, ?_, ?_, ?_⟩
  · intro e h hstat hd
    unfold findIndex indexes
    exact findIndexLoop_cons_file ["README.md"] h hstat hd
  · intro e1 e h1 h2 hstat hd
    unfold findIndex indexes
    rw [findIndexLoop_cons_err ["README.md"] h1]
    exact findIndexLoop_cons_file [] h2 hstat hd
  · intro e1 e2 h1 h2
    unfold findIndex indexes
    rw [findIndexLoop_cons_err ["README.md"] h1, findIndexLoop_cons_err [] h2]
    rfl
  · intro h hstat
    unfold findIndex indexes
    exact findIndexLoop_cons_dir ["README.md"] h hstat
  · intro e1 h1 h2 hstat
    unfold findIndex indexes
    rw [findIndexLoop_cons_err ["README.md"] h1]
    exact findIndexLoop_cons_dir [] h2 hstat

/-- Witness for C8: a directory containing only `index.md` resolves to it. -/
theorem findIndex_order_spec_witness :
    findIndex [("/r/d/index.md", Entry.file "h")] "/r/d" = .ok "/r/d/index.md" := by
  have h := (findIndex_order_spec [("/r/d/index.md", Entry.file "h")] "/r/d").1
    (Entry.file "h") rfl rfl rfl
  exact h.trans rfl

/-- `os.Stat` agrees with `lstat` on paths whose entry is not a symlink. -/
theorem osStat_of_lstat {fs : Fs} {q : String} {e : Entry}
    (h : lstat fs q = .ok e) (hs : isSymLink e = false) : osStat fs q = .ok e := by
  unfold osStat
  show osStatAux fs (39 + 1) q = .ok e
  unfold osStatAux
  rw [h]
  cases e with
  | file c => rfl
  | dir => rfl
  | symlink t => simp [isSymLink] at hs

/-- A path mapped to a regular file resolves to itself with no dereferences. -/
theorem resolvePath_of_file {fs : Fs} {q c : String}
    (h : fsGet fs q = some (.file c)) : resolvePath fs q = ⟨q, none, 0⟩ := by
  have hl : lstat fs q = .ok (.file c) := by unfold lstat; rw [h]
  unfold resolvePath
  rw [hl]
  exact resolveLoop_no_symlink fs q (.file c) rfl maxLinkLevels

/-- C2 (amended): provided the root-relative form of the resolved path does
not trigger the root-escape condition (which runs first and yields
`PermissionDenied`), any filter matching the root-relative form makes
`checkAccess` fail with a 404 `RequestError` — reported as missing, not
forbidden — regardless of the original request string, which `checkAccess`
never sees. -/
theorem filter_match_notFound (fs : Fs) (root : String)
    (filters : List (String → Bool)) (p relp : String) (f : String → Bool)
    (hrel : fpRel root p = .ok relp)
    (hnoesc : ¬(relp.data.length > 1 ∧ relp.data.take 2 = ['.', '.']))
    (hf : f ∈ filters) (hm : f relp = true) :
    checkAccess fs root filters p = some (.reqErr 404) := by
  unfold checkAccess
  rw [hrel]
  have hany : filters.any (fun g => g relp) = true := List.any_eq_true.mpr ⟨f, hf, hm⟩
  simp only [if_neg hnoesc, hany, if_true]

/-- Witness for C2's amended theorem: the scenario of the specification,
root `/srv/docs` with filter matching `barn/README.md`. -/
theorem filter_match_notFound_witness :
    checkAccess [] "/srv/docs" [fun s => s == "barn/README.md"] "/srv/docs/barn/README.md"
      = some (.reqErr 404) :=
  filter_match_notFound [] "/srv/docs" [fun s => s == "barn/README.md"]
    "/srv/docs/barn/README.md" "barn/README.md" (fun s => s == "barn/README.md")
    rfl (by decide) (List.mem_singleton.mpr rfl) rfl

/-- Counterexample for C2 as stated: a request whose resolution reaches the
containment check with a filter matching the resolved path's root-relative
form, yet the outcome is 403 (`PermissionDenied`), not 404 (`NotFound`),
because the root-escape check runs before the filters. -/
theorem filter_match_notFound_cex :
    fpRel "/srv" "/x/secret" = Except.ok "../x/secret" ∧
    (fun s => s == "../x/secret") "../x/secret" = true ∧
    handleRequest [("/srv/link", Entry.symlink "/x/secret"), ("/x/secret", Entry.file "z")]
      "/srv" [fun s => s == "../x/secret"] id "/link" false = .error 403 :=
  ⟨rfl, rfl, rfl⟩

/-- C10: the containment check treats any root-relative form whose first
two characters are `".."` as a root escape, so an existing file directly
under the document root whose own name begins with `".."` is rejected with
`PermissionDenied` (403) even though it is genuinely contained. -/
theorem dotdot_name_rejected (fs : Fs) (root : String)
    (filters : List (String → Bool)) (render : String → String)
    (urlPath : String) (raw : Bool) (c relp : String)
    (hfile : fsGet fs (fpJoin root urlPath) = some (.file c))
    (hrel : fpRel root (fpJoin root urlPath) = .ok relp)
    (hdd : relp.data.take 2 = ['.', '.'])
    (hlen : relp.data.length > 1) :
    handleRequest fs root filters render urlPath raw = .error 403 := by
  have hl : lstat fs (fpJoin root urlPath) = .ok (.file c) := by unfold lstat; rw [hfile]
  have hres := resolvePath_of_file hfile
  have hstat := osStat_of_lstat hl rfl
  have hacc : checkAccess fs root filters (fpJoin root urlPath) = some (.reqErr 403) := by
    unfold checkAccess
    rw [hrel]
    simp only [if_pos (And.intro hlen hdd)]
  unfold handleRequest
  rw [hres]
  simp only
  rw [hstat]
  simp only [isDir, Bool.false_eq_true, if_false]
  rw [hacc]
  rfl

/-- Witness for C10: the file `..notes.md` directly under `/srv/docs`
exists but the request for it is answered 403. -/
theorem dotdot_name_rejected_witness :
    handleRequest [("/srv/docs/..notes.md", Entry.file "x")] "/srv/docs" [] id
      "/..notes.md" false = .error 403 :=
  dotdot_name_rejected [("/srv/docs/..notes.md", Entry.file "x")] "/srv/docs" [] id
    "/..notes.md" false "x" "..notes.md" rfl rfl rfl (by decide)

/-- C9: a servable `.md` file is rendered when the `raw` query parameter is
absent — the body is the Markdown renderer's output on the file's bytes
wrapped in the configured page template, with the title equal to the path
relative to the document root — and served byte-for-byte raw when the
`raw` parameter is present. -/
theorem md_render_round_trip (fs : Fs) (root : String)
    (filters : List (String → Bool)) (render : String → String)
    (urlPath p c relp : String)
    (hres : (resolvePath fs (fpJoin root urlPath)).err = none)
    (hpath : (resolvePath fs (fpJoin root urlPath)).path = p)
    (hfile : fsGet fs p = some (.file c))
    (hext : fpExt p = ".md")
    (hacc : checkAccess fs root filters p = none)
    (hrel : fpRel root p = .ok relp) :
    handleRequest fs root filters render urlPath false
      = .serveMarkdown p (pageHtml relp (render c)) ∧
    handleRequest fs root filters render urlPath true = .serveRaw p c := by
  have hl : lstat fs p = .ok (.file c) := by unfold lstat; rw [hfile]
  have hstat := osStat_of_lstat hl rfl
  have hread : readFile fs p = .ok c := by unfold readFile; rw [hfile]
  rcases hr : resolvePath fs (fpJoin root urlPath) with ⟨pp, ee, ss⟩
  rw [hr] at hres hpath
  simp only at hres hpath
  subst hres
  subst hpath
  constructor
  · unfold handleRequest
    rw [hr]
    simp only
    rw [hstat]
    simp only [isDir, Bool.false_eq_true, if_false]
    rw [hacc]
    simp only
    unfold handleFile
    rw [if_pos ⟨hext, Bool.not_eq_true false ▸ rfl⟩]
    unfold serveMarkdown
    rw [hread, hrel]
  · unfold handleRequest
    rw [hr]
    simp only
    rw [hstat]
    simp only [isDir, Bool.false_eq_true, if_false]
    rw [hacc]
    simp only
    unfold handleFile
    rw [if_neg (by simp)]
    rw [hread]

/-- Witness for C9: `/a.md` under root `/r` renders through the template
when `raw` is absent and comes back verbatim when `raw` is present. -/
theorem md_render_round_trip_witness :
    handleRequest [("/r/a.md", Entry.file "hello")] "/r" [] id "/a.md" false
      = .serveMarkdown "/r/a.md" (pageHtml "a.md" "hello") ∧
    handleRequest [("/r/a.md", Entry.file "hello")] "/r" [] id "/a.md" true
      = .serveRaw "/r/a.md" "hello" :=
  md_render_round_trip [("/r/a.md", Entry.file "hello")] "/r" [] id "/a.md"
    "/r/a.md" "hello" "a.md" rfl rfl rfl rfl rfl rfl

/-! ## Lemmas about the lexical path operations -/

/-- Splitting distributes over a separator between two lists. -/
theorem segsAux_append_slash (a : List Char) :
    ∀ (b cur : List Char), segsAux (a ++ '/' :: b) cur = segsAux a cur ++ segsAux b [] := by
  induction a with
  | nil =>
    intro b cur
    by_cases hc : cur = [] <;> simp [segsAux, hc]
  | cons c a ih =>
    intro b cur
    by_cases hsl : c = '/'
    · subst hsl
      by_cases hc : cur = [] <;> simp [segsAux, hc, ih]
    · simp [segsAux, hsl, ih]

/-- Members of a split (with a slash-free accumulator) are non-empty and
slash-free. -/
theorem mem_segsAux (l : List Char) :
    ∀ (cur : List Char), '/' ∉ cur → ∀ s ∈ segsAux l cur, s ≠ [] ∧ '/' ∉ s := by
  induction l with
  | nil =>
    intro cur hcur s hs
    by_cases hc : cur = []
    · simp [segsAux, hc] at hs
    · simp [segsAux, hc] at hs
      subst hs
      refine ⟨by simpa using hc, by simpa using hcur⟩
  | cons c l ih =>
    intro cur hcur s hs
    by_cases hsl : c = '/'
    · subst hsl
      by_cases hc : cur = []
      · simp only [segsAux, if_pos rfl, hc, if_pos rfl] at hs
        exact ih [] (by simp) s hs
      · simp only [segsAux, if_pos rfl, if_neg hc] at hs
        rcases List.mem_cons.mp hs with h | h
        · subst h
          refine ⟨by simpa using hc, by simpa using hcur⟩
        · exact ih [] (by simp) s h
    · simp only [segsAux, if_neg hsl] at hs
      exact ih (c :: cur) (by simp [hsl, Ne.symm hsl]; simpa using hcur) s hs

/-- Members of `segsOf` are non-empty and slash-free. -/
theorem mem_segsOf {l : List Char} {s : List Char} (h : s ∈ segsOf l) :
    s ≠ [] ∧ '/' ∉ s :=
  mem_segsAux l [] (by simp) s h

/-- The clean stack is a fold: it processes appended input in sequence. -/
theorem cleanStack_append (r : Bool) (xs : List (List Char)) :
    ∀ (ys : List (List Char)) (acc : List (List Char)),
      cleanStack r (xs ++ ys) acc = cleanStack r ys (cleanStack r xs acc) := by
  induction xs with
  | nil => intro ys acc; rfl
  | cons x xs ih =>
    intro ys acc
    by_cases h1 : x = ['.']
    · simp [cleanStack, h1, ih]
    · by_cases h2 : x = ['.', '.']
      · cases acc with
        | nil => cases r <;> simp [cleanStack, h1, h2, ih]
        | cons a as =>
          by_cases h3 : a = ['.', '.'] <;> simp [cleanStack, h1, h2, h3, ih]
      · simp [cleanStack, h1, h2, ih]

/-- Every member of the clean stack comes from the input, the initial
accumulator, or is the literal `".."` segment. -/
theorem mem_cleanStack (r : Bool) (l : List (List Char)) :
    ∀ (acc : List (List Char)) (s : List Char), s ∈ cleanStack r l acc →
      s ∈ l ∨ s ∈ acc ∨ s = ['.', '.'] := by
  induction l with
  | nil => intro acc s hs; exact Or.inr (Or.inl hs)
  | cons x l ih =>
    intro acc s hs
    by_cases h1 : x = ['.']
    · rw [cleanStack.eq_def] at hs
      simp only [if_pos h1] at hs
      rcases ih acc s hs with h | h | h
      · exact Or.inl (List.mem_cons_of_mem x h)
      · exact Or.inr (Or.inl h)
      · exact Or.inr (Or.inr h)
    · by_cases h2 : x = ['.', '.']
      · rw [cleanStack.eq_def] at hs
        simp only [if_neg h1, if_pos h2] at hs
        cases acc with
        | nil =>
          cases r with
          | false =>
            simp only [Bool.false_eq_true, if_false] at hs
            rcases ih [['.', '.']] s hs with h | h | h
            · exact Or.inl (List.mem_cons_of_mem x h)
            · exact Or.inr (Or.inr (List.mem_singleton.mp h))
            · exact Or.inr (Or.inr h)
          | true =>
            simp only [if_true] at hs
            rcases ih [] s hs with h | h | h
            · exact Or.inl (List.mem_cons_of_mem x h)
            · exact absurd h (List.not_mem_nil s)
            · exact Or.inr (Or.inr h)
        | cons a as =>
          by_cases h3 : a = ['.', '.']
          · simp only [if_pos h3] at hs
            rcases ih (['.', '.'] :: a :: as) s hs with h | h | h
            · exact Or.inl (List.mem_cons_of_mem x h)
            · rcases List.mem_cons.mp h with h4 | h4
              · exact Or.inr (Or.inr h4)
              · exact Or.inr (Or.inl h4)
            · exact Or.inr (Or.inr h)
          · simp only [if_neg h3] at hs
            rcases ih as s hs with h | h | h
            · exact Or.inl (List.mem_cons_of_mem x h)
            · exact Or.inr (Or.inl (List.mem_cons_of_mem a h))
            · exact Or.inr (Or.inr h)
      · rw [cleanStack.eq_def] at hs
        simp only [if_neg h1, if_neg h2] at hs
        rcases ih (x :: acc) s hs with h | h | h
        · exact Or.inl (List.mem_cons_of_mem x h)
        · rcases List.mem_cons.mp h with h4 | h4
          · exact Or.inl (h4 ▸ List.mem_cons_self x l)
          · exact Or.inr (Or.inl h4)
        · exact Or.inr (Or.inr h)

/-- The clean stack never contains the `"."` segment. -/
theorem cleanStack_no_dot (r : Bool) (l : List (List Char)) :
    ∀ (acc : List (List Char)), ['.'] ∉ acc → ['.'] ∉ cleanStack r l acc := by
  induction l with
  | nil => intro acc hacc; exact hacc
  | cons x l ih =>
    intro acc hacc
    by_cases h1 : x = ['.']
    · rw [cleanStack.eq_def]
      simp only [if_pos h1]
      exact ih acc hacc
    · by_cases h2 : x = ['.', '.']
      · rw [cleanStack.eq_def]
        simp only [if_neg h1, if_pos h2]
        cases acc with
        | nil =>
          cases r with
          | false => simpa using ih [['.', '.']] (by simp)
          | true => simpa using ih [] (by simp)
        | cons a as =>
          by_cases h3 : a = ['.', '.']
          · simp only [if_pos h3]
            refine ih (['.', '.'] :: a :: as) ?_
            simp only [List.mem_cons, not_or]
            refine ⟨by simp, ?_⟩
            simpa [List.mem_cons, not_or] using hacc
          · simp only [if_neg h3]
            exact ih as (fun hmem => hacc (List.mem_cons_of_mem a hmem))
      · rw [cleanStack.eq_def]
        simp only [if_neg h1, if_neg h2]
        refine ih (x :: acc) ?_
        simp only [List.mem_cons, not_or]
        exact ⟨fun h => h1 h.symm, hacc⟩

/-- In rooted mode the clean stack never contains `".."`. -/
theorem cleanStack_no_dotdot (l : List (List Char)) :
    ∀ (acc : List (List Char)), ['.', '.'] ∉ acc → ['.', '.'] ∉ cleanStack true l acc := by
  induction l with
  | nil => intro acc hacc; exact hacc
  | cons x l ih =>
    intro acc hacc
    by_cases h1 : x = ['.']
    · rw [cleanStack.eq_def]
      simp only [if_pos h1]
      exact ih acc hacc
    · by_cases h2 : x = ['.', '.']
      · rw [cleanStack.eq_def]
        simp only [if_neg h1, if_pos h2]
        cases acc with
        | nil => simpa using ih [] (by simp)
        | cons a as =>
          have h3 : a ≠ ['.', '.'] := fun h => hacc (h ▸ List.mem_cons_self a as)
          simp only [if_neg h3]
          exact ih as (fun hmem => hacc (List.mem_cons_of_mem a hmem))
      · rw [cleanStack.eq_def]
        simp only [if_neg h1, if_neg h2]
        refine ih (x :: acc) ?_
        simp only [List.mem_cons, not_or]
        exact ⟨fun h => h2 h.symm, hacc⟩

/-- Dot-dot-free input is simply filtered of `"."` segments and pushed. -/
theorem cleanStack_no_pops (r : Bool) (l : List (List Char)) :
    ∀ (acc : List (List Char)), (∀ s ∈ l, s ≠ ['.', '.']) →
      cleanStack r l acc = (l.filter (fun s => s ≠ ['.'])).reverse ++ acc := by
  induction l with
  | nil => intro acc _; simp [cleanStack]
  | cons x l ih =>
    intro acc hl
    by_cases h1 : x = ['.']
    · rw [cleanStack.eq_def]
      simp only [if_pos h1]
      rw [ih acc (fun s hs => hl s (List.mem_cons_of_mem x hs))]
      simp [List.filter_cons, h1]
    · have h2 : x ≠ ['.', '.'] := hl x (List.mem_cons_self x l)
      rw [cleanStack.eq_def]
      simp only [if_neg h1, if_neg h2]
      rw [ih (x :: acc) (fun s hs => hl s (List.mem_cons_of_mem x hs))]
      simp [List.filter_cons, h1]

/-- Splitting consumes a slash-free chunk into the accumulator. -/
theorem segsAux_flat (s : List Char) :
    ∀ (l cur : List Char), '/' ∉ s → segsAux (s ++ l) cur = segsAux l (s.reverse ++ cur) := by
  induction s with
  | nil => intro l cur _; simp
  | cons c s ih =>
    intro l cur hs
    have hc : c ≠ '/' := fun h => hs (h ▸ List.mem_cons_self c s)
    rw [List.cons_append, segsAux]
    simp only [if_neg hc]
    rw [ih l (c :: cur) (fun h => hs (List.mem_cons_of_mem c h))]
    simp

/-- Splitting inverts joining for lists of non-empty slash-free segments. -/
theorem segsOf_joinSegs :
    ∀ (out : List (List Char)), (∀ s ∈ out, s ≠ [] ∧ '/' ∉ s) →
      segsOf (joinSegs out) = out := by
  intro out
  induction out with
  | nil => intro _; rfl
  | cons s ss ih =>
    intro h
    obtain ⟨hne, hsl⟩ := h s (List.mem_cons_self s ss)
    cases ss with
    | nil =>
      show segsAux (joinSegs [s]) [] = [s]
      have : joinSegs [s] = s ++ [] := by simp [joinSegs]
      rw [this, segsAux_flat s [] [] hsl]
      have hr : s.reverse ≠ [] := by simpa using hne
      simp [segsAux, hr]
    | cons o os =>
      show segsAux (joinSegs (s :: o :: os)) [] = s :: o :: os
      have : joinSegs (s :: o :: os) = s ++ '/' :: joinSegs (o :: os) := by
        simp [joinSegs]
      rw [this, segsAux_flat s ('/' :: joinSegs (o :: os)) [] hsl]
      rw [segsAux]
      have hr : s.reverse ≠ [] := by simpa using hne
      have ihh : segsAux (joinSegs (o :: os)) [] = o :: os :=
        ih (fun t ht => h t (List.mem_cons_of_mem s ht))
      simp [hr, ihh]

/-- Joining an appended list extends the join of the first part. -/
theorem joinSegs_append_ex :
    ∀ (a b : List (List Char)), ∃ r, joinSegs (a ++ b) = joinSegs a ++ r := by
  intro a
  induction a with
  | nil => intro b; exact ⟨joinSegs b, by simp [joinSegs]⟩
  | cons s a ih =>
    intro b
    cases a with
    | nil =>
      cases b with
      | nil => exact ⟨[], by simp [joinSegs]⟩
      | cons x xs => exact ⟨'/' :: joinSegs (x :: xs), by simp [joinSegs]⟩
    | cons y ys =>
      obtain ⟨r, hr⟩ := ih b
      refine ⟨r, ?_⟩
      show joinSegs (s :: ((y :: ys) ++ b)) = joinSegs (s :: y :: ys) ++ r
      rw [show joinSegs (s :: ((y :: ys) ++ b)) = s ++ '/' :: joinSegs ((y :: ys) ++ b) from by
        simp [joinSegs],
        show joinSegs (s :: y :: ys) = s ++ '/' :: joinSegs (y :: ys) from by simp [joinSegs],
        hr]
      simp

/-- A list is a Boolean prefix of itself extended by anything. -/
theorem isPrefixOf_append_self (l : List Char) :
    ∀ r : List Char, l.isPrefixOf (l ++ r) = true := by
  induction l with
  | nil => intro r; simp [List.isPrefixOf]
  | cons c cs ih => intro r; simp [List.isPrefixOf, ih]

/-- Structure of `cleanL` on a rooted path. -/
theorem cleanL_rooted (l : List Char) (h : l.take 1 = ['/']) :
    cleanL l = '/' :: joinSegs ((cleanStack true (segsOf l) []).reverse) := by
  rw [cleanL, if_pos h]

/-- Members of the rooted clean output are non-empty, slash-free and are
neither `"."` nor `".."`. -/
theorem mem_cleanOut_rooted (l : List Char) :
    ∀ s ∈ (cleanStack true (segsOf l) []).reverse,
      s ≠ [] ∧ '/' ∉ s ∧ s ≠ ['.'] ∧ s ≠ ['.', '.'] := by
  intro s hs
  rw [List.mem_reverse] at hs
  have hdot : s ≠ ['.'] := fun h => cleanStack_no_dot true (segsOf l) [] (by simp) (h ▸ hs)
  have hdd : s ≠ ['.', '.'] :=
    fun h => cleanStack_no_dotdot (segsOf l) [] (by simp) (h ▸ hs)
  rcases mem_cleanStack true (segsOf l) [] s hs with h | h | h
  · obtain ⟨h1, h2⟩ := mem_segsOf h
    exact ⟨h1, h2, hdot, hdd⟩
  · exact absurd h (List.not_mem_nil s)
  · exact absurd h hdd

/-- The segments of a rooted cleaned path are exactly the clean output. -/
theorem segsOf_cleanL_rooted (l : List Char) (h : l.take 1 = ['/']) :
    segsOf (cleanL l) = (cleanStack true (segsOf l) []).reverse := by
  rw [cleanL_rooted l h]
  show segsAux ('/' :: joinSegs ((cleanStack true (segsOf l) []).reverse)) [] = _
  rw [segsAux]
  simp only [if_pos rfl]
  exact segsOf_joinSegs _ (fun s hs => ⟨(mem_cleanOut_rooted l s hs).1,
    (mem_cleanOut_rooted l s hs).2.1⟩)

/-- Pushing an already-clean rooted output back through the stack reverses it. -/
theorem cleanStack_of_cleanOut (r : Bool) (out : List (List Char))
    (h : ∀ s ∈ out, s ≠ ['.'] ∧ s ≠ ['.', '.']) :
    cleanStack r out [] = out.reverse := by
  rw [cleanStack_no_pops r out [] (fun s hs => (h s hs).2)]
  rw [List.filter_eq_self.mpr (fun s hs => by simpa using (h s hs).1)]
  simp

/-- Cleaning is idempotent on rooted paths. -/
theorem cleanL_idem_rooted (l : List Char) (h : l.take 1 = ['/']) :
    cleanL (cleanL l) = cleanL l := by
  have habs : (cleanL l).take 1 = ['/'] := by
    rw [cleanL_rooted l h]
    rfl
  rw [cleanL_rooted (cleanL l) habs, segsOf_cleanL_rooted l h,
    cleanStack_of_cleanOut true ((cleanStack true (segsOf l) []).reverse)
      (fun s hs => ⟨(mem_cleanOut_rooted l s hs).2.2.1, (mem_cleanOut_rooted l s hs).2.2.2⟩),
    List.reverse_reverse]
  rw [cleanL_rooted l h]

/-- `isAbs` in terms of the first character. -/
theorem isAbs_take (s : String) : isAbs s = true ↔ s.data.take 1 = ['/'] := by
  simp [isAbs]

/-- An absolute path's character list starts with the separator. -/
theorem abs_head {s : String} (h : isAbs s = true) : ∃ rl, s.data = '/' :: rl := by
  have h1 := (isAbs_take s).mp h
  cases hd : s.data with
  | nil => rw [hd] at h1; simp at h1
  | cons c tl =>
    rw [hd] at h1
    simp at h1
    exact ⟨tl, by rw [h1]⟩

/-- C5 (amended): the canonicalizer output `Clean(Join(root, path))` is
lexically prefixed by the document root whenever the root is an absolute,
already-clean path and the request path contains no `".."` segment; a
request path with leading `".."` segments can escape lexically (see the
counterexample). -/
theorem rootPath_prefixed (root p : String)
    (habs : isAbs root = true) (hclean : fpClean root = root)
    (hnd : ['.', '.'] ∉ segsOf p.data) :
    root.data.isPrefixOf (rootPath p root).data = true := by
  have hroot1 : root.data.take 1 = ['/'] := (isAbs_take root).mp habs
  have hcd : cleanL root.data = root.data := congrArg String.data hclean
  have hrootne : root ≠ "" := by
    intro h
    rw [h] at hroot1
    simp at hroot1
  have hB : segsOf root.data = (cleanStack true (segsOf root.data) []).reverse := by
    conv_lhs => rw [← hcd]
    exact segsOf_cleanL_rooted root.data hroot1
  have hstackR : cleanStack true (segsOf root.data) [] = (segsOf root.data).reverse := by
    have h2 := congrArg List.reverse hB
    rw [List.reverse_reverse] at h2
    exact h2.symm
  have hrootform : root.data = '/' :: joinSegs (segsOf root.data) := by
    conv_lhs => rw [← hcd]
    rw [cleanL_rooted root.data hroot1, hstackR, List.reverse_reverse]
  by_cases hp : p = ""
  · subst hp
    show root.data.isPrefixOf (fpClean (fpJoin root "")).data = true
    unfold fpJoin
    rw [if_neg hrootne, if_pos rfl, hclean, hclean]
    have h0 := isPrefixOf_append_self root.data []
    rwa [List.append_nil] at h0

  · show root.data.isPrefixOf (fpClean (fpJoin root p)).data = true
    unfold fpJoin
    rw [if_neg hrootne, if_neg hp]
    have hL1 : (root.data ++ '/' :: p.data).take 1 = ['/'] := by
      obtain ⟨rl, hrl⟩ := abs_head habs
      rw [hrl]
      rfl
    have hidem : cleanL (cleanL (root.data ++ '/' :: p.data))
        = cleanL (root.data ++ '/' :: p.data) := cleanL_idem_rooted _ hL1
    show root.data.isPrefixOf (cleanL (cleanL (root.data ++ '/' :: p.data))) = true
    rw [hidem, cleanL_rooted _ hL1]
    have hsegs : segsOf (root.data ++ '/' :: p.data) = segsOf root.data ++ segsOf p.data := by
      unfold segsOf
      exact segsAux_append_slash root.data p.data []
    rw [hsegs, cleanStack_append true (segsOf root.data) (segsOf p.data) [], hstackR,
      cleanStack_no_pops true (segsOf p.data) ((segsOf root.data).reverse)
        (fun s hs => fun h => hnd (h ▸ hs)),
      List.reverse_append, List.reverse_reverse, List.reverse_reverse]
    obtain ⟨r, hr⟩ := joinSegs_append_ex (segsOf root.data)
      ((segsOf p.data).filter (fun s => s ≠ ['.']))
    rw [hr]
    have hfin : '/' :: (joinSegs (segsOf root.data) ++ r) = root.data ++ r := by
      conv_rhs => rw [hrootform]
      simp
    rw [hfin]
    exact isPrefixOf_append_self root.data r

/-- Witness for C5's amended theorem: `/a/b.md` joined under `/srv/docs`
stays lexically inside it. -/
theorem rootPath_prefixed_witness :
    "/srv/docs".data.isPrefixOf (rootPath "/a/b.md" "/srv/docs").data = true :=
  rootPath_prefixed "/srv/docs" "/a/b.md" rfl rfl (by decide)

/-- Counterexample for C5 as stated: the raw request path `/../x` under
root `/srv/docs` canonicalizes to `/srv/x`, which is not lexically
prefixed by the document root. -/
theorem rootPath_prefixed_cex :
    rootPath "/../x" "/srv/docs" = "/srv/x" ∧
    "/srv/docs".data.isPrefixOf (rootPath "/../x" "/srv/docs").data = false :=
  ⟨rfl, rfl⟩

/-- Cleaning preserves absoluteness. -/
theorem fpClean_abs {s : String} (h : isAbs s = true) : isAbs (fpClean s) = true := by
  have h1 := (isAbs_take s).mp h
  rw [isAbs_take]
  show (cleanL s.data).take 1 = ['/']
  rw [cleanL_rooted s.data h1]
  rfl

/-- Appending anything to an absolute path keeps it absolute. -/
theorem append_abs {p : String} (q : String) (h : isAbs p = true) :
    isAbs (p ++ q) = true := by
  obtain ⟨rl, hrl⟩ := abs_head h
  rw [isAbs_take, String.data_append, hrl]
  rfl

/-- Joining onto an absolute first element yields an absolute path. -/
theorem fpJoin_abs (a b : String) (ha : isAbs a = true) : isAbs (fpJoin a b) = true := by
  obtain ⟨rl, hrl⟩ := abs_head ha
  have hane : a ≠ "" := by
    intro h
    rw [h] at hrl
    exact List.noConfusion hrl
  unfold fpJoin
  rw [if_neg hane]
  by_cases hb : b = ""
  · rw [if_pos hb]
    exact fpClean_abs ha
  · rw [if_neg hb]
    have h1 : (a.data ++ '/' :: b.data).take 1 = ['/'] := by rw [hrl]; rfl
    rw [isAbs_take]
    show (cleanL (a.data ++ '/' :: b.data)).take 1 = ['/']
    rw [cleanL_rooted _ h1]
    rfl

/-- Dropping from a list ending in a separator leaves a separator-ended
suffix. -/
theorem dropWhile_concat_slash :
    ∀ xs : List Char, ∃ zs, (xs ++ ['/']).dropWhile (fun c => c ≠ '/') = zs ++ ['/'] := by
  intro xs
  induction xs with
  | nil => exact ⟨[], by simp [List.dropWhile]⟩
  | cons x xs ih =>
    by_cases hx : x = '/'
    · exact ⟨x :: xs, by simp [List.dropWhile, hx]⟩
    · obtain ⟨zs, hzs⟩ := ih
      refine ⟨zs, ?_⟩
      simp only [List.cons_append, List.dropWhile_cons, decide_not, hx, decide_False,
        Bool.not_false, if_true]
      simpa using hzs

/-- The parent directory of an absolute path is absolute. -/
theorem fpDir_abs {p : String} (h : isAbs p = true) : isAbs (fpDir p) = true := by
  obtain ⟨rl, hrl⟩ := abs_head h
  obtain ⟨zs, hzs⟩ := dropWhile_concat_slash rl.reverse
  have hdp : (dirPart p.data).take 1 = ['/'] := by
    unfold dirPart
    rw [hrl, List.reverse_cons, hzs, List.reverse_append]
    rfl
  rw [isAbs_take]
  show (cleanL (dirPart p.data)).take 1 = ['/']
  rw [cleanL_rooted _ hdp]
  rfl

/-- The resolver loop only produces absolute paths from absolute inputs. -/
theorem resolveLoop_abs (fs : Fs) :
    ∀ (n : Nat) (path : String) (fi : Entry), isAbs path = true →
      isAbs (resolveLoop fs path fi n).path = true := by
  intro n
  induction n with
  | zero =>
    intro path fi h
    by_cases hs : isSymLink fi = true <;> simp [resolveLoop, hs] <;> exact h
  | succ n ih =>
    intro path fi h
    by_cases hs : isSymLink fi = true
    · cases fi with
      | file c => simp [isSymLink] at hs
      | dir => simp [isSymLink] at hs
      | symlink t =>
        cases hr : readlink fs path with
        | error e =>
          have hstep : resolveLoop fs path (.symlink t) (n + 1) = ⟨path, some e, 0⟩ := by
            simp [resolveLoop, isSymLink, hr]
          rw [hstep]
          exact h
        | ok target =>
          have habs' : isAbs (if isAbs target then target
              else fpJoin (fpDir path) target) = true := by
            by_cases ht : isAbs target = true
            · rw [if_pos ht]; exact ht
            · rw [if_neg ht]; exact fpJoin_abs (fpDir path) target (fpDir_abs h)
          cases hl : lstat fs (if isAbs target then target
              else fpJoin (fpDir path) target) with
          | error e =>
            have hstep : resolveLoop fs path (.symlink t) (n + 1)
                = ⟨if isAbs target then target else fpJoin (fpDir path) target,
                   some e, 1⟩ := by
              simp [resolveLoop, isSymLink, hr, hl]
            rw [hstep]
            exact habs'
          | ok fi' =>
            have hstep : resolveLoop fs path (.symlink t) (n + 1)
                = ⟨(resolveLoop fs (if isAbs target then target
                      else fpJoin (fpDir path) target) fi' n).path,
                   (resolveLoop fs (if isAbs target then target
                      else fpJoin (fpDir path) target) fi' n).err,
                   (resolveLoop fs (if isAbs target then target
                      else fpJoin (fpDir path) target) fi' n).steps + 1⟩ := by
              simp [resolveLoop, isSymLink, hr, hl]
            rw [hstep]
            exact ih _ fi' habs'
    · rw [resolveLoop_no_symlink fs path fi (by simpa using hs) (n + 1)]
      exact h

/-- The resolver only produces absolute paths from absolute inputs. -/
theorem resolvePath_abs (fs : Fs) (p : String) (h : isAbs p = true) :
    isAbs (resolvePath fs p).path = true := by
  unfold resolvePath
  cases hl : lstat fs p with
  | error e => exact h
  | ok fi => exact resolveLoop_abs fs maxLinkLevels p fi h

/-- The first remainder of `dropCommon` is a suffix of the first input. -/
theorem dropCommon_fst_drop :
    ∀ (as bs : List (List Char)), ∃ k, (dropCommon as bs).1 = as.drop k := by
  intro as
  induction as with
  | nil => intro bs; cases bs <;> exact ⟨0, rfl⟩
  | cons a as ih =>
    intro bs
    cases bs with
    | nil => exact ⟨0, rfl⟩
    | cons b bs =>
      by_cases hab : a = b
      · obtain ⟨k, hk⟩ := ih bs
        refine ⟨k + 1, ?_⟩
        rw [dropCommon, if_pos hab, List.drop_succ_cons]
        exact hk
      · exact ⟨0, by simp [dropCommon, hab]⟩

/-- A singleton prefix is a member. -/
theorem take_one_mem {α : Type} {l : List α} {x : α} (h : l.take 1 = [x]) : x ∈ l := by
  cases l with
  | nil => simp at h
  | cons y ys =>
    simp at h
    exact h ▸ List.mem_cons_self y ys

/-- `filepath.Rel` always succeeds between two absolute paths: a cleaned
rooted base has no `".."` segments left to block relativization. -/
theorem fpRel_ok_of_abs (base targ : String)
    (hb : isAbs base = true) (ht : isAbs targ = true) :
    ∃ r, fpRel base targ = .ok r := by
  have hb1 := (isAbs_take base).mp hb
  have ht1 := (isAbs_take targ).mp ht
  have hbc : (cleanL base.data).take 1 = ['/'] := by rw [cleanL_rooted _ hb1]; rfl
  have htc : (cleanL targ.data).take 1 = ['/'] := by rw [cleanL_rooted _ ht1]; rfl
  unfold fpRel
  by_cases heq : cleanL base.data = cleanL targ.data
  · rw [if_pos heq]
    exact ⟨".", rfl⟩
  · rw [if_neg heq]
    dsimp only
    have hbdot : ¬(cleanL base.data = ['.']) := by
      intro hc
      rw [hc] at hbc
      simp at hbc
    rw [if_neg hbdot]
    have habs2 : ¬((List.take 1 (cleanL base.data) = ['/'])
        ≠ (List.take 1 (cleanL targ.data) = ['/'])) :=
      fun hne => hne (propext (iff_of_true hbc htc))
    rw [if_neg habs2]
    have hnd : ¬(List.take 1 (dropCommon (segsOf (cleanL base.data))
        (segsOf (cleanL targ.data))).1 = [['.', '.']]) := by
      intro hc
      have hmem : ['.', '.'] ∈ (dropCommon (segsOf (cleanL base.data))
          (segsOf (cleanL targ.data))).1 := take_one_mem hc
      obtain ⟨k, hk⟩ := dropCommon_fst_drop (segsOf (cleanL base.data))
        (segsOf (cleanL targ.data))
      rw [hk] at hmem
      have hmem2 : ['.', '.'] ∈ segsOf (cleanL base.data) := List.drop_subset k _ hmem
      rw [segsOf_cleanL_rooted base.data hb1] at hmem2
      exact (mem_cleanOut_rooted base.data _ hmem2).2.2.2 rfl
    rw [if_neg hnd]
    exact ⟨_, rfl⟩

/-- `replaceTrailingSlash` is the identity when the request has no
trailing slash. -/
theorem replaceTrailingSlash_id (p request : String)
    (h : lastChar request ≠ some '/') : replaceTrailingSlash p request = p := by
  unfold replaceTrailingSlash
  rw [if_neg (fun hc => h hc.1)]

/-- When the request ends in a slash, so does the replaced path. -/
theorem replaceTrailingSlash_last (p request : String)
    (h : lastChar request = some '/') :
    lastChar (replaceTrailingSlash p request) = some '/' := by
  unfold replaceTrailingSlash
  by_cases hp : lastChar p = some '/'
  · rw [if_neg (fun hc => hc.2 hp)]
    exact hp
  · rw [if_pos ⟨h, hp⟩]
    show (p ++ "/").data.getLast? = some '/'
    rw [String.data_append]
    exact List.getLast?_concat p.data

/-- `replaceTrailingSlash` preserves absoluteness. -/
theorem replaceTrailingSlash_abs (p request : String) (h : isAbs p = true) :
    isAbs (replaceTrailingSlash p request) = true := by
  unfold replaceTrailingSlash
  split
  · exact append_abs "/" h
  · exact h

/-- C6 (amended): a request that resolves to a directory whose canonical
path does not itself end in a slash, when the original request path lacks
a trailing slash, is always answered with a redirect to the resolved
path's root-relative form with a trailing slash appended — never with a
served body.  (The resolved path ends in a slash only when it is the
filesystem root `"/"`, the case of the counterexample.) -/
theorem dir_no_slash_redirect (fs : Fs) (root : String)
    (filters : List (String → Bool)) (render : String → String)
    (urlPath : String) (raw : Bool)
    (hroot : isAbs root = true)
    (herr : (resolvePath fs (fpJoin root urlPath)).err = none)
    (hdir : osStat fs (resolvePath fs (fpJoin root urlPath)).path = .ok .dir)
    (hreq : lastChar urlPath ≠ some '/')
    (hpl : lastChar (resolvePath fs (fpJoin root urlPath)).path ≠ some '/') :
    ∃ relp, fpRel root (resolvePath fs (fpJoin root urlPath)).path = .ok relp ∧
      handleRequest fs root filters render urlPath raw
        = .redirect ("/" ++ relp ++ "/") := by
  have habs : isAbs (resolvePath fs (fpJoin root urlPath)).path = true :=
    resolvePath_abs fs _ (fpJoin_abs root urlPath hroot)
  obtain ⟨relp, hrel⟩ := fpRel_ok_of_abs root _ hroot habs
  refine ⟨relp, hrel, ?_⟩
  rcases hr : resolvePath fs (fpJoin root urlPath) with ⟨pp, ee, ss⟩
  rw [hr] at herr hdir hrel hpl
  simp only at herr hdir hrel hpl
  subst herr
  unfold handleRequest
  rw [hr]
  simp only
  rw [hdir]
  simp only [isDir, if_true]
  unfold handleDir
  dsimp only
  rw [replaceTrailingSlash_id pp urlPath hreq]
  rw [if_pos hpl, hrel]

/-- Witness for C6's amended theorem: requesting `/d` for an existing
directory `/r/d` under root `/r` redirects to `/d/`. -/
theorem dir_no_slash_redirect_witness :
    ∃ relp, fpRel "/r" (resolvePath [("/r/d", Entry.dir)] (fpJoin "/r" "/d")).path
        = .ok relp ∧
      handleRequest [("/r/d", Entry.dir)] "/r" [] id "/d" false
        = .redirect ("/" ++ relp ++ "/") :=
  dir_no_slash_redirect [("/r/d", Entry.dir)] "/r" [] id "/d" false
    rfl rfl rfl (by decide) (by decide)

/-- Counterexample for C6 as stated: a no-trailing-slash request resolving
(through a symlink) to the directory `"/"` is not redirected at all — the
resolved path already ends in `'/'`, so the router runs index resolution
and, with no index present, fails with 404. -/
theorem dir_no_slash_redirect_cex :
    osStat [("/r/x", Entry.symlink "/"), ("/", Entry.dir)]
        (resolvePath [("/r/x", Entry.symlink "/"), ("/", Entry.dir)]
          (fpJoin "/r" "/x")).path = .ok .dir ∧
    lastChar "/x" ≠ some '/' ∧
    handleRequest [("/r/x", Entry.symlink "/"), ("/", Entry.dir)] "/r" [] id "/x" false
      = .error 404 ∧
    isRedirect (handleRequest [("/r/x", Entry.symlink "/"), ("/", Entry.dir)]
      "/r" [] id "/x" false) = false :=
  ⟨rfl, by decide, rfl, rfl⟩

/-- C7 (amended): a trailing-slash request resolving to a directory whose
slash-normalized path `pd` contains an `index.md` resolving to a regular
file is answered with a 302 redirect to the index's root-relative URL (the
router redirects to indexes instead of serving them; the follow-up request
then serves the rendered file); if neither `index.md` nor `README.md`
resolves, the outcome is `NotFound` (404). -/
theorem dir_with_slash_index (fs : Fs) (root : String)
    (filters : List (String → Bool)) (render : String → String)
    (urlPath : String) (raw : Bool) (p pd : String)
    (hroot : isAbs root = true)
    (herr : (resolvePath fs (fpJoin root urlPath)).err = none)
    (hp : (resolvePath fs (fpJoin root urlPath)).path = p)
    (hdir : osStat fs p = .ok .dir)
    (hslash : lastChar urlPath = some '/')
    (hpd : replaceTrailingSlash p urlPath = pd) :
    (∀ c, (resolvePath fs (fpJoin pd "index.md")).err = none →
      fsGet fs (resolvePath fs (fpJoin pd "index.md")).path = some (.file c) →
      ∃ relp, fpRel root (resolvePath fs (fpJoin pd "index.md")).path = .ok relp ∧
        handleRequest fs root filters render urlPath raw = .redirect ("/" ++ relp)) ∧
    (∀ e1 e2, (resolvePath fs (fpJoin pd "index.md")).err = some e1 →
      (resolvePath fs (fpJoin pd "README.md")).err = some e2 →
      handleRequest fs root filters render urlPath raw = .error 404) := by
  have hpabs : isAbs p = true := by
    rw [← hp]
    exact resolvePath_abs fs _ (fpJoin_abs root urlPath hroot)
  have hpdabs : isAbs pd = true := by
    rw [← hpd]
    exact replaceTrailingSlash_abs p urlPath hpabs
  have hmain : handleRequest fs root filters render urlPath raw
      = (match findIndex fs pd with
         | .error e => .error (statusOf e)
         | .ok idx =>
           match fpRel root idx with
           | .ok relp => .redirect ("/" ++ relp)
           | .error e => .error (statusOf e)) := by
    rcases hres : resolvePath fs (fpJoin root urlPath) with ⟨pp, ee, ss⟩
    rw [hres] at herr hp
    simp only at herr hp
    subst herr
    subst hp
    unfold handleRequest
    rw [hres]
    simp only
    rw [hdir]
    simp only [isDir, if_true]
    unfold handleDir
    dsimp only
    rw [hpd]
    have hlast : lastChar pd = some '/' := by
      rw [← hpd]
      exact replaceTrailingSlash_last pp urlPath hslash
    rw [if_neg (by simpa using hlast)]
  constructor
  · intro c h1 h2
    have hlst : lstat fs (resolvePath fs (fpJoin pd "index.md")).path = .ok (.file c) := by
      unfold lstat
      rw [h2]
    have hstat := osStat_of_lstat hlst rfl
    have hfi : findIndex fs pd = .ok (resolvePath fs (fpJoin pd "index.md")).path := by
      unfold findIndex indexes
      exact findIndexLoop_cons_file ["README.md"] h1 hstat rfl
    have hqabs : isAbs (resolvePath fs (fpJoin pd "index.md")).path = true :=
      resolvePath_abs fs _ (fpJoin_abs pd "index.md" hpdabs)
    obtain ⟨relp, hrel⟩ := fpRel_ok_of_abs root _ hroot hqabs
    refine ⟨relp, hrel, ?_⟩
    rw [hmain, hfi]
    simp only
    rw [hrel]
  · intro e1 e2 h1 h2
    have hfi : findIndex fs pd = .error (.reqErr 404) := by
      unfold findIndex indexes
      rw [findIndexLoop_cons_err ["README.md"] h1, findIndexLoop_cons_err [] h2]
      rfl
    rw [hmain, hfi]
    rfl

/-- Witness for C7's amended theorem: `/d/` under root `/r` with
`/r/d/index.md` present redirects to the index's URL. -/
theorem dir_with_slash_index_witness :
    ∃ relp, fpRel "/r"
        (resolvePath [("/r/d", Entry.dir), ("/r/d/index.md", Entry.file "h")]
          (fpJoin "/r/d/" "index.md")).path = .ok relp ∧
      handleRequest [("/r/d", Entry.dir), ("/r/d/index.md", Entry.file "h")]
        "/r" [] id "/d/" false = .redirect ("/" ++ relp) :=
  (dir_with_slash_index [("/r/d", Entry.dir), ("/r/d/index.md", Entry.file "h")]
    "/r" [] id "/d/" false "/r/d" "/r/d/" rfl rfl rfl rfl rfl rfl).1 "h" rfl rfl

/-- Counterexample for C7 as stated: a trailing-slash directory request
with `index.md` present (and no `README.md`) yields a redirect to the
index path, not a served body. -/
theorem dir_with_slash_index_cex :
    lastChar "/d/" = some '/' ∧
    fsGet [("/r/d", Entry.dir), ("/r/d/index.md", Entry.file "hello")] "/r/d"
      = some Entry.dir ∧
    fsGet [("/r/d", Entry.dir), ("/r/d/index.md", Entry.file "hello")] "/r/d/index.md"
      = some (Entry.file "hello") ∧
    handleRequest [("/r/d", Entry.dir), ("/r/d/index.md", Entry.file "hello")]
      "/r" [] id "/d/" false = .redirect "/d/index.md" ∧
    isServe (handleRequest [("/r/d", Entry.dir), ("/r/d/index.md", Entry.file "hello")]
      "/r" [] id "/d/" false) = false :=
  ⟨rfl, rfl, rfl, rfl, rfl⟩

end Docserver
